import Mathlib

/-!
# Verification of the sift streaming match engine and condition evaluator

This file gives a shallow embedding, in Lean 4, of the core data structures and
algorithms of the `sift` search tool (the streaming match engine in
`processReader`, the per-block de-duplication pass, the streaming handoff, the
`LineTooLong` detection, the binary-file detection, the line counting in
`countLines`, the condition evaluator `applyConditions`, and the ASCII
case-folding routine `bytes_to_lower`), and proves or refutes the testable
properties stated in the project specification.

Bytes are modelled as `Nat` values (`10` is the newline byte `0x0a`, `0` is
NUL).  Go `int64`/`int` offsets are modelled as `Int`.  Buffers are `List Nat`.
-/

namespace Sift

/-- The `Match` record from `sift.go`: one located hit of a pattern.
`start`/`end` are absolute byte offsets (Go field `end` is spelled `end_`
because `end` is a Lean keyword); `lineStart`/`lineEnd` delimit the enclosing
line(s); `lineno` is the 1-based line number; `conditionID` indexes the global
condition table (Go `int`, always a valid nonnegative index when attached to a
condition match); `match_`/`line` hold the matched text and the enclosing line
(Go fields `match` and `line`); the two context fields hold optional context
blocks. -/
structure Match where
  start : Int := 0
  end_ : Int := 0
  lineStart : Int := 0
  lineEnd : Int := 0
  match_ : String := ""
  line : String := ""
  lineno : Int := 0
  conditionID : Nat := 0
  contextBefore : Option String := none
  contextAfter : Option String := none
deriving DecidableEq, Repr, Inhabited

/-- The `ConditionType` enumeration from `sift.go`. -/
inductive ConditionType where
  | preceded
  | followed
  | surrounded
  | fileMatches
  | lineMatches
  | rangeMatches
deriving DecidableEq, Repr, Inhabited

/-- The `Condition` record from `sift.go`.  The compiled regex field is not
modelled: the condition evaluator `applyConditions` never consults it (the
regex is only used earlier, to produce the condition matches). -/
structure Condition where
  conditionType : ConditionType
  within : Int := -1
  lineRangeStart : Int := 0
  lineRangeEnd : Int := 0
  negated : Bool := false
deriving DecidableEq, Repr, Inhabited

/-- The `Result` record from `sift.go`: the per-target match collection.  The
Go field `matches` is spelled `matches_` because `matches` is a reserved Lean
token.  The Go field `matchChan chan Matches` is modelled by recording the
capacity the channel was created with (`make(chan Matches, 16)`), `none` when
no channel was attached. -/
structure Result where
  conditionMatches : List Match := []
  matches_ : List Match := []
  matchChanCapacity : Option Nat := none
  streaming : Bool := false
  isBinary : Bool := false
  target : String := ""
deriving DecidableEq, Repr, Inhabited

/-!
## De-duplication and ordering (`processReader`, the sort-and-filter pass)

`processReader` sorts each block's raw matches by `start` and then walks them,
keeping a candidate `m` exactly when the previously accepted match `prevMatch`
(carried across blocks in `lastMatch`) satisfies
`(!multiline && m.lineEnd > prevMatch.lineEnd) || (multiline && m.start >= prevMatch.end)`;
rejected candidates are removed in place.
-/

/-- The acceptance test of the de-duplication loop in `processReader`
(the condition on `newMatches[i]` against `prevMatch`). -/
def validMatch (multiline : Bool) (prevMatch m : Match) : Bool :=
  (!multiline && decide (prevMatch.lineEnd < m.lineEnd)) ||
    (multiline && decide (prevMatch.end_ ≤ m.start))

/-- The shrinking filter loop of `processReader` lines 158–182: walk the sorted
candidates, keeping a candidate when `prevMatch` is absent (`nil`) or
`validMatch` holds, in which case it becomes the new `prevMatch`; otherwise the
candidate is deleted from the slice. -/
def filterNewMatches (multiline : Bool) : Option Match → List Match → List Match
  | _, [] => []
  | none, m :: rest => m :: filterNewMatches multiline (some m) rest
  | some p, m :: rest =>
      if validMatch multiline p m then m :: filterNewMatches multiline (some m) rest
      else filterNewMatches multiline (some p) rest

/-- After a block is processed, `lastMatch` is set to the final accepted match
of the block when the block produced any accepted match (`processReader` line
205, guarded by `len(newMatches) > 0`), and is otherwise left unchanged. -/
def lastCarried (prev : Option Match) (filtered : List Match) : Option Match :=
  match filtered.getLast? with
  | some m => some m
  | none => prev

/-- The sequence of primary matches a target emits, block by block: each block's
sorted candidates pass through the de-duplication filter seeded with the
`lastMatch` carried over from the previous blocks. -/
def emitBlocks (multiline : Bool) : Option Match → List (List Match) → List Match
  | _, [] => []
  | prev, b :: rest =>
      let f := filterNewMatches multiline prev b
      f ++ emitBlocks multiline (lastCarried prev f) rest

/-- The ordering relation the specification promises between two successively
emitted matches (IP3/IP4). -/
def emitOrder (multiline : Bool) (m1 m2 : Match) : Prop :=
  if multiline then m1.end_ ≤ m2.start else m1.lineEnd < m2.lineEnd

lemma validMatch_emitOrder {multiline : Bool} {p m : Match}
    (h : validMatch multiline p m = true) : emitOrder multiline p m := by
  cases multiline <;> simp [validMatch, emitOrder] at h ⊢ <;> exact h

lemma filterNewMatches_chain (multiline : Bool) :
    ∀ (l : List Match) (prev : Option Match),
      List.Chain' (emitOrder multiline) (filterNewMatches multiline prev l) ∧
        ∀ p, prev = some p →
          ∀ h ∈ (filterNewMatches multiline prev l).head?, emitOrder multiline p h := by
  intro l
  induction l with
  | nil =>
    intro prev
    refine ⟨?_, ?_⟩
    · cases prev <;> simp [filterNewMatches]
    · intro p _ h hh
      cases prev <;> simp [filterNewMatches] at hh
  | cons m rest ih =>
    intro prev
    match prev with
    | none =>
      refine ⟨?_, by intro p hp; cases hp⟩
      have hrec := ih (some m)
      rw [filterNewMatches]
      exact List.chain'_cons'.mpr ⟨fun y hy => hrec.2 m rfl y hy, hrec.1⟩
    | some p =>
      rw [filterNewMatches]
      by_cases hv : validMatch multiline p m = true
      · simp only [hv, if_true]
        have hrec := ih (some m)
        refine ⟨List.chain'_cons'.mpr ⟨fun y hy => hrec.2 m rfl y hy, hrec.1⟩, ?_⟩
        intro q hq h hh
        injection hq with hq; subst hq
        simp at hh; subst hh
        exact validMatch_emitOrder hv
      · simp only [hv, if_false]
        exact ih (some p)

lemma emitBlocks_chain (multiline : Bool) :
    ∀ (blocks : List (List Match)) (prev : Option Match),
      List.Chain' (emitOrder multiline) (emitBlocks multiline prev blocks) ∧
        ∀ p, prev = some p →
          ∀ h ∈ (emitBlocks multiline prev blocks).head?, emitOrder multiline p h := by
  intro blocks
  induction blocks with
  | nil =>
    intro prev
    refine ⟨by simp [emitBlocks], ?_⟩
    intro p _ h hh
    simp [emitBlocks] at hh
  | cons b rest ih =>
    intro prev
    rw [emitBlocks]
    have hf := filterNewMatches_chain multiline b prev
    have hrec := ih (lastCarried prev (filterNewMatches multiline prev b))
    constructor
    · refine List.chain'_append.mpr ⟨hf.1, hrec.1, ?_⟩
      intro x hx y hy
      refine hrec.2 x ?_ y hy
      unfold lastCarried
      rw [hx]
    · intro p hp h hh
      cases hF : filterNewMatches multiline prev b with
      | nil =>
        rw [hF] at hh
        simp only [List.nil_append] at hh
        have h1 : lastCarried prev ([] : List Match) = some p := by
          simp [lastCarried, hp]
        exact (ih (lastCarried prev [])).2 p h1 h hh
      | cons m fs =>
        rw [hF] at hh
        simp only [List.cons_append, List.head?_cons, Option.mem_def,
          Option.some.injEq] at hh
        subst hh
        have h2 := hf.2 p hp
        rw [hF] at h2
        exact h2 m (by simp)

/-- **C1** (IP3/IP4 and cross-block carry-over).  For every target and any two
successively emitted primary matches `M₁` then `M₂` (the `lastMatch` accepted
in one block being carried over to seed the next block's filter): in
single-line mode `M₂.lineEnd > M₁.lineEnd`, and in multiline mode
`M₂.start ≥ M₁.end`. -/
theorem c1_successive_emitted_matches_ordered (multiline : Bool)
    (blocks : List (List Match)) :
    List.Chain'
      (fun m1 m2 =>
        if multiline then m1.end_ ≤ m2.start else m1.lineEnd < m2.lineEnd)
      (emitBlocks multiline none blocks) :=
  (emitBlocks_chain multiline blocks none).1

/-!
## C2: strict ascent of `start` offsets

The specification claims no two emitted matches of a target share a `start`
offset.  The de-duplication pass only compares `m.start ≥ prevMatch.end` in
multiline mode, which a zero-width match (with `start = end`) passes even when
it shares its `start` with the previously accepted match, so the claim fails
in multiline mode for zero-width regex matches.
-/

lemma mem_filterNewMatches {multiline : Bool} {m : Match} :
    ∀ {prev : Option Match} {l : List Match},
      m ∈ filterNewMatches multiline prev l → m ∈ l := by
  intro prev l
  induction l generalizing prev with
  | nil => intro h; cases prev <;> simp [filterNewMatches] at h
  | cons a rest ih =>
    intro h
    match prev with
    | none =>
      rw [filterNewMatches] at h
      rcases List.mem_cons.mp h with h | h
      · exact h ▸ List.mem_cons_self a rest
      · exact List.mem_cons_of_mem a (ih h)
    | some p =>
      rw [filterNewMatches] at h
      by_cases hv : validMatch multiline p a = true
      · rw [if_pos hv] at h
        rcases List.mem_cons.mp h with h | h
        · exact h ▸ List.mem_cons_self a rest
        · exact List.mem_cons_of_mem a (ih h)
      · rw [if_neg hv] at h
        exact List.mem_cons_of_mem a (ih h)

lemma mem_emitBlocks {multiline : Bool} {m : Match} :
    ∀ {prev : Option Match} {blocks : List (List Match)},
      m ∈ emitBlocks multiline prev blocks → ∃ b ∈ blocks, m ∈ b := by
  intro prev blocks
  induction blocks generalizing prev with
  | nil => intro h; simp [emitBlocks] at h
  | cons b rest ih =>
    intro h
    rw [emitBlocks] at h
    rcases List.mem_append.mp h with h | h
    · exact ⟨b, List.mem_cons_self b rest, mem_filterNewMatches h⟩
    · obtain ⟨b', hb', hm⟩ := ih h
      exact ⟨b', List.mem_cons_of_mem b hb', hm⟩

lemma chain'_start_lt_of_multiline :
    ∀ l : List Match, List.Chain' (emitOrder true) l →
      (∀ m ∈ l, m.start < m.end_) →
      List.Chain' (fun a b : Match => a.start < b.start) l := by
  intro l
  induction l with
  | nil => intro _ _; simp
  | cons a rest ih =>
    intro hc hnd
    have h1 := List.chain'_cons'.mp hc
    refine List.chain'_cons'.mpr ⟨?_, ih h1.2 fun m hm => hnd m (List.mem_cons_of_mem a hm)⟩
    intro y hy
    have hay : emitOrder true a y := h1.1 y hy
    have hend : a.end_ ≤ y.start := by simpa [emitOrder] using hay
    exact lt_of_lt_of_le (hnd a (List.mem_cons_self a rest)) hend

lemma chain'_lt_pairwise {f : Match → Int} {l : List Match}
    (h : List.Chain' (fun a b : Match => f a < f b) l) :
    List.Pairwise (fun a b : Match => f a < f b) l :=
  (@List.chain'_iff_pairwise Match (fun a b : Match => f a < f b)
    ⟨fun _ _ _ h1 h2 => lt_trans h1 h2⟩ l).mp h

/-- A zero-width multiline match (such as one produced by the pattern `^`). -/
def zeroWidthAtStart : Match :=
  { start := 0, end_ := 0, lineStart := 0, lineEnd := 3 }

/-- A non-empty multiline match beginning at the same offset (such as one
produced by a second pattern `ab` on the block `"abc"`). -/
def overlapAtStart : Match :=
  { start := 0, end_ := 2, lineStart := 0, lineEnd := 3 }

/-- **C2** counterexample.  In multiline mode, a zero-width candidate and a
non-empty candidate sharing `start = 0` (as produced by the two primary
patterns `^` and `ab` on the target `"abc"`) both survive the de-duplication
pass, because the acceptance test `m.start ≥ prevMatch.end` compares against
the zero-width match's `end = 0`.  Two emitted matches therefore share a
`start` offset, refuting IP2 as stated. -/
theorem c2_counterexample :
    ¬ List.Pairwise (fun m1 m2 : Match => m1.start ≠ m2.start)
        (emitBlocks true none [[zeroWidthAtStart, overlapAtStart]]) := by
  intro h
  have he : emitBlocks true none [[zeroWidthAtStart, overlapAtStart]] =
      [zeroWidthAtStart, overlapAtStart] := by decide
  rw [he] at h
  have h2 := (List.pairwise_cons.mp h).1 overlapAtStart (by simp)
  exact h2 (by decide)

/-- **C2** (amended).  Within a target the emitted matches never share a
`start` offset provided that (multiline mode) every candidate match is
non-empty (`start < end`), or that (single-line mode) candidates agreeing on
`start` agree on `lineEnd` — which holds for matches produced by `getMatches`
in single-line mode, where a match contains no newline and `lineEnd` is the
position of the first newline (or end of buffer) at or after the match.
Zero-width candidates in multiline mode may share a `start` offset. -/
theorem c2_amended_no_shared_start (multiline : Bool) (blocks : List (List Match))
    (hmulti : multiline = true → ∀ b ∈ blocks, ∀ m ∈ b, m.start < m.end_)
    (hsingle : multiline = false → ∀ b1 ∈ blocks, ∀ b2 ∈ blocks,
      ∀ m1 ∈ b1, ∀ m2 ∈ b2, m1.start = m2.start → m1.lineEnd = m2.lineEnd) :
    List.Pairwise (fun m1 m2 : Match => m1.start ≠ m2.start)
      (emitBlocks multiline none blocks) := by
  have hchain := (emitBlocks_chain multiline blocks none).1
  cases multiline with
  | true =>
    have hnd : ∀ m ∈ emitBlocks true none blocks, m.start < m.end_ := by
      intro m hm
      obtain ⟨b, hb, hmb⟩ := mem_emitBlocks hm
      exact hmulti rfl b hb m hmb
    have hlt := chain'_start_lt_of_multiline _ hchain hnd
    exact (chain'_lt_pairwise (f := Match.start) hlt).imp fun h => ne_of_lt h
  | false =>
    have hle : List.Chain' (fun a b : Match => a.lineEnd < b.lineEnd)
        (emitBlocks false none blocks) := by
      simpa [emitOrder] using hchain
    have hp := chain'_lt_pairwise (f := Match.lineEnd) hle
    refine List.Pairwise.imp_of_mem ?_ hp
    intro a b ha hb hlt heq
    obtain ⟨b1, hb1, ha1⟩ := mem_emitBlocks ha
    obtain ⟨b2, hb2, hb2'⟩ := mem_emitBlocks hb
    have := hsingle rfl b1 hb1 b2 hb2 a ha1 b hb2' heq
    exact absurd this (ne_of_lt hlt)

/-- Witness for the amended C2 at a concrete multiline input: two non-empty
matches on consecutive offsets pass the filter and have distinct starts. -/
theorem c2_amended_no_shared_start_witness :
    List.Pairwise (fun m1 m2 : Match => m1.start ≠ m2.start)
      (emitBlocks true none
        [[{ start := 0, end_ := 1, lineStart := 0, lineEnd := 3 },
          { start := 1, end_ := 2, lineStart := 0, lineEnd := 3 }]]) :=
  c2_amended_no_shared_start true _
    (fun _ => by decide) (fun h => absurd h (by decide))


/-!
## C3: streaming handoff (`processReader` lines 198–238)

The engine's externally visible actions are modelled as a list of events: a
`Result` sent on the results channel, a batch of matches sent on the follow-up
match channel, and the closing of that channel (the `defer close(matchChan)`
registered when streaming starts, which runs when `processReader` returns).
-/

/-- One externally visible action of the streaming engine. -/
inductive EngineEvent where
  | sendResult : Result → EngineEvent
  | sendBatch : List Match → EngineEvent
  | closeChan : EngineEvent
deriving DecidableEq, Repr

/-- Whether an event is a `Result` send on the results channel. -/
def isSendResult : EngineEvent → Bool
  | .sendResult _ => true
  | _ => false

/-- Number of `Result` records sent on the results channel. -/
def countResults (evs : List EngineEvent) : Nat := (evs.filter isSendResult).length

/-- The non-streaming `Result` sent after EOF (`processReader` line 236):
it carries the accumulated matches and condition matches. -/
def finalResult (target : String) (condMatches acc : List Match)
    (isBinary : Bool) : Result :=
  { target := target, matches_ := acc, conditionMatches := condMatches,
    streaming := false, isBinary := isBinary }

/-- The `Result` flushed when streaming starts (`processReader` line 213):
`streaming = true` and a match channel created with capacity 16. -/
def streamingResult (target : String) (acc : List Match) (isBinary : Bool) : Result :=
  { target := target, matches_ := acc, streaming := true,
    matchChanCapacity := some 16, isBinary := isBinary }

/-- The match accumulation / streaming / limit logic of `processReader`
lines 198–238, one step per block of de-duplicated new matches: empty blocks
do nothing; while not streaming, a block is appended to `matches` and, when
`len(matches) > streamingThreshold && streamingAllowed`, the `Result` is
flushed with `streaming = true` and a match channel of capacity 16 (whose
close is deferred to engine termination); while streaming, each block is sent
as a batch; `matchCount` accumulates and, when `limit != 0 && matchCount >=
limit`, the loop breaks; after the loop a non-streaming `Result` is sent iff
streaming never started. -/
def processBlocksLoop (allowed : Bool) (threshold : Nat) (limit : Int)
    (isBinary : Bool) (condMatches : List Match) (target : String) :
    List (List Match) → List Match → Int → Bool → List EngineEvent
  | [], acc, _, streamingOn =>
    if streamingOn then [.closeChan]
    else [.sendResult (finalResult target condMatches acc isBinary)]
  | newMatches :: rest, acc, matchCount, streamingOn =>
    if newMatches.isEmpty then
      processBlocksLoop allowed threshold limit isBinary condMatches target
        rest acc matchCount streamingOn
    else if streamingOn then
      if limit ≠ 0 ∧ limit ≤ matchCount + newMatches.length then
        [.sendBatch newMatches, .closeChan]
      else
        .sendBatch newMatches ::
          processBlocksLoop allowed threshold limit isBinary condMatches target
            rest acc (matchCount + newMatches.length) true
    else
      if threshold < (acc ++ newMatches).length ∧ allowed = true then
        if limit ≠ 0 ∧ limit ≤ matchCount + newMatches.length then
          [.sendResult (streamingResult target (acc ++ newMatches) isBinary),
            .closeChan]
        else
          .sendResult (streamingResult target (acc ++ newMatches) isBinary) ::
            processBlocksLoop allowed threshold limit isBinary condMatches target
              rest (acc ++ newMatches) (matchCount + newMatches.length) true
      else if limit ≠ 0 ∧ limit ≤ matchCount + newMatches.length then
        [.sendResult (finalResult target condMatches (acc ++ newMatches) isBinary)]
      else
        processBlocksLoop allowed threshold limit isBinary condMatches target
          rest (acc ++ newMatches) (matchCount + newMatches.length) false

/-- The streaming handoff as the specification words it (§4.B.7): accumulate
matches into the `Result`; once the accumulator crosses `streaming_threshold`
and streaming is enabled, flush the current `Result` with `streaming = true`
and a follow-up channel of capacity 16 batches, send every later (non-empty)
block's matches through that channel in order, and close the channel when the
engine terminates; otherwise one non-streaming `Result` carrying all
accumulated matches is sent after EOF. -/
def streamingHandoffSpec (allowed : Bool) (threshold : Nat)
    (isBinary : Bool) (condMatches : List Match) (target : String) :
    List (List Match) → List Match → List EngineEvent
  | [], acc => [.sendResult (finalResult target condMatches acc isBinary)]
  | b :: rest, acc =>
    if b.isEmpty then
      streamingHandoffSpec allowed threshold isBinary condMatches target rest acc
    else if threshold < (acc ++ b).length ∧ allowed = true then
      .sendResult (streamingResult target (acc ++ b) isBinary) ::
        ((rest.filter fun blk => !blk.isEmpty).map EngineEvent.sendBatch ++
          [EngineEvent.closeChan])
    else
      streamingHandoffSpec allowed threshold isBinary condMatches target rest (acc ++ b)

/-- Total number of matches over all blocks. -/
def totalLen (blocks : List (List Match)) : Nat := (blocks.map List.length).sum

lemma pbl_nil (allowed : Bool) (threshold : Nat) (limit : Int) (isBinary : Bool)
    (condMatches : List Match) (target : String) (acc : List Match) (mc : Int)
    (streamingOn : Bool) :
    processBlocksLoop allowed threshold limit isBinary condMatches target
        [] acc mc streamingOn =
      if streamingOn then [.closeChan]
      else [.sendResult (finalResult target condMatches acc isBinary)] := by
  rw [processBlocksLoop]

lemma pbl_cons_empty {b : List Match} (hb : b.isEmpty = true)
    (allowed : Bool) (threshold : Nat) (limit : Int) (isBinary : Bool)
    (condMatches : List Match) (target : String) (rest : List (List Match))
    (acc : List Match) (mc : Int) (streamingOn : Bool) :
    processBlocksLoop allowed threshold limit isBinary condMatches target
        (b :: rest) acc mc streamingOn =
      processBlocksLoop allowed threshold limit isBinary condMatches target
        rest acc mc streamingOn := by
  rw [processBlocksLoop]; simp [hb]

lemma pbl0_cons_streaming {b : List Match} (hb : b.isEmpty = false)
    (allowed : Bool) (threshold : Nat) (isBinary : Bool)
    (condMatches : List Match) (target : String) (rest : List (List Match))
    (acc : List Match) (mc : Int) :
    processBlocksLoop allowed threshold 0 isBinary condMatches target
        (b :: rest) acc mc true =
      .sendBatch b ::
        processBlocksLoop allowed threshold 0 isBinary condMatches target
          rest acc (mc + b.length) true := by
  rw [processBlocksLoop]; simp [hb]

lemma pbl0_cons_cross {b : List Match} {allowed : Bool} {threshold : Nat}
    {acc : List Match} (hb : b.isEmpty = false)
    (hc : threshold < (acc ++ b).length ∧ allowed = true)
    (isBinary : Bool) (condMatches : List Match) (target : String)
    (rest : List (List Match)) (mc : Int) :
    processBlocksLoop allowed threshold 0 isBinary condMatches target
        (b :: rest) acc mc false =
      .sendResult (streamingResult target (acc ++ b) isBinary) ::
        processBlocksLoop allowed threshold 0 isBinary condMatches target
          rest (acc ++ b) (mc + b.length) true := by
  have h1 : ¬(b.isEmpty = true) := by simp [hb]
  have h2 : ¬(false = true) := by simp
  have h3 : ¬((0 : Int) ≠ 0 ∧ (0 : Int) ≤ mc + b.length) := fun h => h.1 rfl
  rw [processBlocksLoop, if_neg h1, if_neg h2, if_pos hc, if_neg h3]

lemma pbl0_cons_nocross {b : List Match} {allowed : Bool} {threshold : Nat}
    {acc : List Match} (hb : b.isEmpty = false)
    (hc : ¬(threshold < (acc ++ b).length ∧ allowed = true))
    (isBinary : Bool) (condMatches : List Match) (target : String)
    (rest : List (List Match)) (mc : Int) :
    processBlocksLoop allowed threshold 0 isBinary condMatches target
        (b :: rest) acc mc false =
      processBlocksLoop allowed threshold 0 isBinary condMatches target
        rest (acc ++ b) (mc + b.length) false := by
  have h1 : ¬(b.isEmpty = true) := by simp [hb]
  have h2 : ¬(false = true) := by simp
  have h3 : ¬((0 : Int) ≠ 0 ∧ (0 : Int) ≤ mc + b.length) := fun h => h.1 rfl
  rw [processBlocksLoop, if_neg h1, if_neg h2, if_neg hc, if_neg h3]

lemma spec_nil (allowed : Bool) (threshold : Nat) (isBinary : Bool)
    (condMatches : List Match) (target : String) (acc : List Match) :
    streamingHandoffSpec allowed threshold isBinary condMatches target [] acc =
      [.sendResult (finalResult target condMatches acc isBinary)] := by
  rw [streamingHandoffSpec]

lemma spec_cons_empty {b : List Match} (hb : b.isEmpty = true)
    (allowed : Bool) (threshold : Nat) (isBinary : Bool)
    (condMatches : List Match) (target : String) (rest : List (List Match))
    (acc : List Match) :
    streamingHandoffSpec allowed threshold isBinary condMatches target
        (b :: rest) acc =
      streamingHandoffSpec allowed threshold isBinary condMatches target rest acc := by
  rw [streamingHandoffSpec]; simp [hb]

lemma spec_cons_cross {b : List Match} {allowed : Bool} {threshold : Nat}
    {acc : List Match} (hb : b.isEmpty = false)
    (hc : threshold < (acc ++ b).length ∧ allowed = true)
    (isBinary : Bool) (condMatches : List Match) (target : String)
    (rest : List (List Match)) :
    streamingHandoffSpec allowed threshold isBinary condMatches target
        (b :: rest) acc =
      .sendResult (streamingResult target (acc ++ b) isBinary) ::
        ((rest.filter fun blk => !blk.isEmpty).map EngineEvent.sendBatch ++
          [EngineEvent.closeChan]) := by
  have h1 : ¬(b.isEmpty = true) := by simp [hb]
  rw [streamingHandoffSpec, if_neg h1, if_pos hc]

lemma spec_cons_nocross {b : List Match} {allowed : Bool} {threshold : Nat}
    {acc : List Match} (hb : b.isEmpty = false)
    (hc : ¬(threshold < (acc ++ b).length ∧ allowed = true))
    (isBinary : Bool) (condMatches : List Match) (target : String)
    (rest : List (List Match)) :
    streamingHandoffSpec allowed threshold isBinary condMatches target
        (b :: rest) acc =
      streamingHandoffSpec allowed threshold isBinary condMatches target
        rest (acc ++ b) := by
  have h1 : ¬(b.isEmpty = true) := by simp [hb]
  rw [streamingHandoffSpec, if_neg h1, if_neg hc]

lemma processBlocksLoop_streaming (allowed : Bool) (threshold : Nat)
    (isBinary : Bool) (condMatches : List Match) (target : String) :
    ∀ (blocks : List (List Match)) (acc : List Match) (mc : Int),
      processBlocksLoop allowed threshold 0 isBinary condMatches target
          blocks acc mc true =
        (blocks.filter fun blk => !blk.isEmpty).map EngineEvent.sendBatch ++
          [EngineEvent.closeChan] := by
  intro blocks
  induction blocks with
  | nil => intro acc mc; simp [pbl_nil]
  | cons b rest ih =>
    intro acc mc
    cases hb : b.isEmpty with
    | true => rw [pbl_cons_empty hb, ih acc mc]; simp [List.filter_cons, hb]
    | false =>
      rw [pbl0_cons_streaming hb, ih acc (mc + b.length)]
      simp [List.filter_cons, hb]

lemma processBlocksLoop_eq_spec (allowed : Bool) (threshold : Nat)
    (isBinary : Bool) (condMatches : List Match) (target : String) :
    ∀ (blocks : List (List Match)) (acc : List Match) (mc : Int),
      processBlocksLoop allowed threshold 0 isBinary condMatches target
          blocks acc mc false =
        streamingHandoffSpec allowed threshold isBinary condMatches target blocks acc := by
  intro blocks
  induction blocks with
  | nil => intro acc mc; rw [pbl_nil, spec_nil]; simp
  | cons b rest ih =>
    intro acc mc
    cases hb : b.isEmpty with
    | true => rw [pbl_cons_empty hb, spec_cons_empty hb, ih acc mc]
    | false =>
      by_cases hcross : threshold < (acc ++ b).length ∧ allowed = true
      · rw [pbl0_cons_cross hb hcross, spec_cons_cross hb hcross,
          processBlocksLoop_streaming allowed threshold isBinary condMatches target]
      · rw [pbl0_cons_nocross hb hcross, spec_cons_nocross hb hcross,
          ih (acc ++ b) (mc + b.length)]

lemma countResults_batches (l : List (List Match)) :
    countResults (l.map EngineEvent.sendBatch ++ [EngineEvent.closeChan]) = 0 := by
  induction l with
  | nil => simp [countResults, isSendResult]
  | cons b rest ih =>
    simp [countResults, isSendResult]

lemma spec_countResults (allowed : Bool) (threshold : Nat)
    (isBinary : Bool) (condMatches : List Match) (target : String) :
    ∀ (blocks : List (List Match)) (acc : List Match),
      countResults
        (streamingHandoffSpec allowed threshold isBinary condMatches target blocks acc)
        = 1 := by
  intro blocks
  induction blocks with
  | nil => intro acc; rw [spec_nil]; simp [countResults, isSendResult]
  | cons b rest ih =>
    intro acc
    cases hb : b.isEmpty with
    | true => rw [spec_cons_empty hb]; exact ih acc
    | false =>
      by_cases hcross : threshold < (acc ++ b).length ∧ allowed = true
      · rw [spec_cons_cross hb hcross]
        have h0 := countResults_batches (rest.filter fun blk => !blk.isEmpty)
        simp [countResults, isSendResult] at h0 ⊢
        exact h0
      · rw [spec_cons_nocross hb hcross]; exact ih (acc ++ b)

lemma spec_no_crossing (allowed : Bool) (threshold : Nat)
    (isBinary : Bool) (condMatches : List Match) (target : String) :
    ∀ (blocks : List (List Match)) (acc : List Match),
      ¬(allowed = true ∧ threshold < acc.length + totalLen blocks) →
      streamingHandoffSpec allowed threshold isBinary condMatches target blocks acc =
        [.sendResult (finalResult target condMatches (acc ++ blocks.flatten) isBinary)] := by
  intro blocks
  induction blocks with
  | nil => intro acc _; rw [spec_nil]; simp
  | cons b rest ih =>
    intro acc hno
    cases hb : b.isEmpty with
    | true =>
      have hb' : b = [] := List.isEmpty_iff.mp hb
      subst hb'
      rw [spec_cons_empty hb]
      have h1 := ih acc (by simpa [totalLen] using hno)
      simpa using h1
    | false =>
      have hcross : ¬(threshold < (acc ++ b).length ∧ allowed = true) := by
        rintro ⟨hlt, hall⟩
        refine hno ⟨hall, ?_⟩
        simp [totalLen] at hlt ⊢
        omega
      rw [spec_cons_nocross hb hcross]
      have h1 := ih (acc ++ b) ?_
      · simpa using h1
      · simp [totalLen] at hno ⊢
        intro hall
        have h2 := hno hall
        omega

lemma spec_crossing (allowed : Bool) (threshold : Nat)
    (isBinary : Bool) (condMatches : List Match) (target : String) :
    ∀ (blocks : List (List Match)) (acc : List Match),
      acc.length ≤ threshold →
      allowed = true → threshold < acc.length + totalLen blocks →
      ∃ (flushed : List Match) (rest' : List (List Match)),
        streamingHandoffSpec allowed threshold isBinary condMatches target blocks acc =
          .sendResult (streamingResult target flushed isBinary) ::
            (rest'.map EngineEvent.sendBatch ++ [EngineEvent.closeChan]) ∧
          threshold < flushed.length := by
  intro blocks
  induction blocks with
  | nil =>
    intro acc hacc _ hcross
    exfalso
    simp [totalLen] at hcross
    omega
  | cons b rest ih =>
    intro acc hacc hall hcross
    cases hb : b.isEmpty with
    | true =>
      have hb' : b = [] := List.isEmpty_iff.mp hb
      subst hb'
      rw [spec_cons_empty hb]
      exact ih acc hacc hall (by simpa [totalLen] using hcross)
    | false =>
      by_cases hc : threshold < (acc ++ b).length ∧ allowed = true
      · rw [spec_cons_cross hb hc]
        exact ⟨acc ++ b, rest.filter (fun blk => !blk.isEmpty), ⟨rfl, hc.1⟩⟩
      · rw [spec_cons_nocross hb hc]
        have hle : (acc ++ b).length ≤ threshold := by
          by_contra hgt
          exact hc ⟨by omega, hall⟩
        refine ih (acc ++ b) hle hall ?_
        simp [totalLen] at hcross ⊢
        omega

/-- **C3**.  For a target run to completion (no read error, not skipped as
binary, no limit: `limit = 0`), the engine's event sequence matches the
specification's streaming handoff: exactly one `Result` is ever sent; when
streaming is allowed and the accumulated match count crosses the threshold
(default 65536, `global.streamingThreshold = 1 << 16`), that `Result` is
flushed at the crossing block with `streaming = true` and a match channel of
capacity 16, every later non-empty block flows through the channel as a
batch, and the channel close terminates the event sequence; otherwise the
single `Result` has `streaming = false` and carries all accumulated
matches. -/
theorem c3_streaming_handoff (allowed : Bool) (threshold : Nat)
    (isBinary : Bool) (condMatches : List Match) (target : String)
    (blocks : List (List Match)) :
    (processBlocksLoop allowed threshold 0 isBinary condMatches target
        blocks [] 0 false =
      streamingHandoffSpec allowed threshold isBinary condMatches target blocks []) ∧
    countResults (processBlocksLoop allowed threshold 0 isBinary condMatches target
        blocks [] 0 false) = 1 ∧
    (¬(allowed = true ∧ threshold < totalLen blocks) →
      processBlocksLoop allowed threshold 0 isBinary condMatches target
          blocks [] 0 false =
        [.sendResult (finalResult target condMatches blocks.flatten isBinary)]) ∧
    (allowed = true → threshold < totalLen blocks →
      ∃ (flushed : List Match) (rest' : List (List Match)),
        processBlocksLoop allowed threshold 0 isBinary condMatches target
            blocks [] 0 false =
          .sendResult (streamingResult target flushed isBinary) ::
            (rest'.map EngineEvent.sendBatch ++ [EngineEvent.closeChan]) ∧
          threshold < flushed.length) := by
  have heq := processBlocksLoop_eq_spec allowed threshold isBinary condMatches target blocks [] 0
  refine ⟨heq, ?_, ?_, ?_⟩
  · rw [heq]; exact spec_countResults allowed threshold isBinary condMatches target blocks []
  · intro hno
    rw [heq]
    have h1 := spec_no_crossing allowed threshold isBinary condMatches target blocks []
      (by simpa using hno)
    simpa using h1
  · intro hall hcross
    rw [heq]
    exact spec_crossing allowed threshold isBinary condMatches target blocks []
      (Nat.zero_le threshold) hall (by simpa using hcross)

/-- Witness for C3 at a concrete input: one block of two matches, streaming
not allowed, so the engine emits exactly one non-streaming `Result` carrying
both matches. -/
theorem c3_streaming_handoff_witness :
    processBlocksLoop false 5 0 false [] "t"
        [[{ start := 0 : Match }, { start := 1 : Match }]] [] 0 false =
      [.sendResult (finalResult "t" []
        [{ start := 0 : Match }, { start := 1 : Match }] false)] := by
  have h := (c3_streaming_handoff false 5 false [] "t"
    [[{ start := 0 : Match }, { start := 1 : Match }]]).2.2.1 (by decide)
  simpa using h

/-!
## C4: the `LineTooLong` error (`processReader` lines 56–140, `processFileTargets`)

In every iteration the read loop sets `lastInputBlockSize = length` and then
shrinks `validMatchRange` to end on a newline; when no newline is found within
`validMatchRange` and the block is completely full, the target fails with
`errLineTooLong`.  In multiline mode with a block larger than the 32 KiB
sliding window (and not at EOF), `validMatchRange` excludes the trailing
window, so the scan covers only `length − InputMultilineWindow` bytes.
-/

/-- `validMatchRange` as computed by the read loop of `processReader`
(lines 56–97): in multiline mode, when not at EOF and the block exceeds
`InputMultilineWindow`, only `length − InputMultilineWindow` bytes are
eligible; otherwise the whole block. -/
def validMatchRangeOf (multiline isEOF : Bool) (length window : Nat) : Nat :=
  if multiline = true ∧ isEOF = false ∧ window < length then length - window
  else length

/-- The backward newline scan of `processReader` lines 121–128: the position
of the last `0x0a` strictly below `pos`, scanning downwards. -/
def lastNewlineBefore (data : List Nat) : Nat → Option Nat
  | 0 => none
  | pos + 1 =>
    if data.getD pos 0 = 10 then some pos else lastNewlineBefore data pos

/-- The `LineTooLong` failure condition of `processReader` lines 118–139: not
at EOF, no newline within `validMatchRange`, and the input block completely
full (`lastInputBlockSize == InputBlockSize`, the loop having set
`lastInputBlockSize = length`). -/
def raisesLineTooLong (multiline isEOF : Bool) (data : List Nat)
    (length inputBlockSize window : Nat) : Bool :=
  if isEOF = true then false
  else
    match lastNewlineBefore data
        (validMatchRangeOf multiline isEOF length window) with
    | some _ => false
    | none => length == inputBlockSize

/-- Outcome of processing one target in a `processFileTargets` worker. -/
inductive TargetOutcome where
  | ok
  | lineTooLong
  | otherError
deriving DecidableEq, Repr

/-- The error accounting of `processFileTargets` (`sift.go` lines 439–449):
the worker loop keeps consuming targets after a failure; an `errLineTooLong`
return bumps `global.totalLineLengthErrors` by one (the count reported at
shutdown), other errors are only logged. -/
def totalLineLengthErrors : List TargetOutcome → Nat
  | [] => 0
  | o :: rest => (if o = .lineTooLong then 1 else 0) + totalLineLengthErrors rest

lemma lastNewlineBefore_eq_none {data : List Nat} :
    ∀ {n : Nat}, lastNewlineBefore data n = none ↔ ∀ i < n, data.getD i 0 ≠ 10 := by
  intro n
  induction n with
  | zero => simp [lastNewlineBefore]
  | succ n ih =>
    rw [lastNewlineBefore]
    by_cases hn : data.getD n 0 = 10
    · rw [if_pos hn]
      constructor
      · intro h; cases h
      · intro h; exact absurd hn (h n (Nat.lt_succ_self n))
    · rw [if_neg hn, ih]
      constructor
      · intro h i hi
        rcases Nat.lt_succ_iff_lt_or_eq.mp hi with hi | hi
        · exact h i hi
        · exact hi ▸ hn
      · intro h i hi
        exact h i (Nat.lt_succ_of_lt hi)

lemma lastNewlineBefore_eq_some {data : List Nat} :
    ∀ {n pos : Nat}, lastNewlineBefore data n = some pos →
      pos < n ∧ data.getD pos 0 = 10 := by
  intro n
  induction n with
  | zero => intro pos h; cases h
  | succ n ih =>
    intro pos h
    rw [lastNewlineBefore] at h
    by_cases hn : data.getD n 0 = 10
    · rw [if_pos hn] at h
      injection h with h
      subst h
      exact ⟨Nat.lt_succ_self n, hn⟩
    · rw [if_neg hn] at h
      have := ih h
      exact ⟨Nat.lt_succ_of_lt this.1, this.2⟩

/-- A completely full 256 KiB input block whose only newline is its very last
byte (which lies inside the 32 KiB multiline overlap window). -/
def fullBlockNewlineAtEnd : List Nat := List.replicate 262143 65 ++ [10]

lemma fullBlockNewlineAtEnd_getD_low {i : Nat} (hi : i < 262143) :
    fullBlockNewlineAtEnd.getD i 0 = 65 := by
  rw [fullBlockNewlineAtEnd, List.getD_eq_getElem?_getD,
    List.getElem?_append_left (by rw [List.length_replicate]; omega),
    List.getElem?_replicate, if_pos hi]
  rfl

lemma fullBlockNewlineAtEnd_getD_last : fullBlockNewlineAtEnd.getD 262143 0 = 10 := by
  rw [fullBlockNewlineAtEnd, List.getD_eq_getElem?_getD,
    List.getElem?_append_right (by rw [List.length_replicate]),
    List.length_replicate]
  norm_num

/-- **C4** counterexample.  In multiline mode with the default 256 KiB block
size, a completely full block whose only newline is its final byte raises
`LineTooLong` — the backward scan covers only `validMatchRange =
length − InputMultilineWindow = 229376` bytes — even though the block does
contain a newline, refuting the claim that the error occurs exactly when a
full block contains no newline. -/
theorem c4_counterexample :
    raisesLineTooLong true false fullBlockNewlineAtEnd 262144 262144 32768 = true ∧
      ¬(∀ i, i < 262144 → fullBlockNewlineAtEnd.getD i 0 ≠ 10) := by
  constructor
  · have hvmr : validMatchRangeOf true false 262144 32768 = 229376 := by
      unfold validMatchRangeOf
      rw [if_pos (by norm_num)]
    have hnone : lastNewlineBefore fullBlockNewlineAtEnd 229376 = none := by
      rw [lastNewlineBefore_eq_none]
      intro i hi
      rw [fullBlockNewlineAtEnd_getD_low (by omega)]
      norm_num
    unfold raisesLineTooLong
    rw [if_neg (by norm_num), hvmr, hnone]
    rfl
  · intro h
    exact absurd fullBlockNewlineAtEnd_getD_last (h 262143 (by norm_num))

/-- **C4** (amended).  `processReader` fails a target with `LineTooLong`
exactly when, with EOF not reached, the input block is completely full
(`length = InputBlockSize`) and no newline occurs within `validMatchRange` —
the whole block in single-line mode, but only the block minus the trailing
32 KiB overlap window in multiline mode when the block exceeds the window.
Processing of other targets continues after the failure, and the shutdown
tally `totalLineLengthErrors` counts exactly the `LineTooLong` failures. -/
theorem c4_amended_line_too_long (multiline isEOF : Bool) (data : List Nat)
    (length inputBlockSize window : Nat) :
    (raisesLineTooLong multiline isEOF data length inputBlockSize window = true ↔
      (isEOF = false ∧ length = inputBlockSize ∧
        ∀ i < validMatchRangeOf multiline isEOF length window,
          data.getD i 0 ≠ 10)) ∧
    (∀ outcomes : List TargetOutcome,
      totalLineLengthErrors outcomes =
        (outcomes.filter (fun o => o == TargetOutcome.lineTooLong)).length) := by
  constructor
  · cases isEOF with
    | true =>
      unfold raisesLineTooLong
      rw [if_pos rfl]
      simp
    | false =>
      unfold raisesLineTooLong
      rw [if_neg (by simp)]
      cases hscan : lastNewlineBefore data
          (validMatchRangeOf multiline false length window) with
      | some pos =>
        have hp := lastNewlineBefore_eq_some hscan
        simp only [Bool.false_eq_true]
        constructor
        · intro h; cases h
        · rintro ⟨-, -, hall⟩
          exact absurd hp.2 (hall pos hp.1)
      | none =>
        have hall := lastNewlineBefore_eq_none.mp hscan
        simp only [beq_iff_eq]
        constructor
        · intro h; exact ⟨by trivial, h, hall⟩
        · rintro ⟨-, h, -⟩; exact h
  · intro outcomes
    induction outcomes with
    | nil => simp [totalLineLengthErrors]
    | cons o rest ih =>
      rw [totalLineLengthErrors, ih, List.filter_cons]
      by_cases ho : o = TargetOutcome.lineTooLong
      · subst ho; simp [Nat.add_comm]
      · simp [ho]

/-!
## C5: the per-target `limit` option

The read loop (`processReader` lines 220–223) breaks as soon as the
accumulated match count reaches the limit; the accumulated blocks may
overshoot the limit, and the renderer's printing loop (`printResult` lines
333–355) enforces the cap on what is actually output.
-/

/-- The number of input blocks the read loop consumes under a `limit`
(`processReader` lines 220–223).  `blocks` holds each block's count of
accepted matches; a block with accepted matches bumps `matchCount`, and when
`options.Limit != 0 && matchCount >= options.Limit` the loop breaks (blocks
with no accepted match never touch the counter). -/
def blocksRead (limit : Int) : List Nat → Int → Nat
  | [], _ => 0
  | b :: rest, matchCount =>
    if b = 0 then 1 + blocksRead limit rest matchCount
    else if limit ≠ 0 ∧ limit ≤ matchCount + b then 1
    else 1 + blocksRead limit rest (matchCount + b)

/-- The printing loop of `printResult` (lines 333–355): the `Result`'s
matches followed by the streamed batches (concatenated here) are printed one
by one; after each print `matchCount++`, and when `options.Limit != 0 &&
matchCount >= options.Limit` the loop breaks.  Returns the number of matches
printed. -/
def printMatchesCount (limit : Int) : List Match → Int → Nat
  | [], _ => 0
  | _ :: rest, matchCount =>
    if limit ≠ 0 ∧ limit ≤ matchCount + 1 then 1
    else 1 + printMatchesCount limit rest (matchCount + 1)

lemma blocksRead_spec (limit : Int) (hl : 0 < limit) :
    ∀ (blocks : List Nat) (mc : Int), mc < limit →
      (∀ k < blocksRead limit blocks mc,
        mc + (((blocks.take k).sum : Nat) : Int) < limit) ∧
      (blocksRead limit blocks mc < blocks.length →
        limit ≤ mc + (((blocks.take (blocksRead limit blocks mc)).sum : Nat) : Int)) := by
  intro blocks
  induction blocks with
  | nil =>
    intro mc hmc
    constructor
    · intro k hk; simp [blocksRead] at hk
    · intro h; simp [blocksRead] at h
  | cons b rest ih =>
    intro mc hmc
    by_cases hb : b = 0
    · subst hb
      rw [blocksRead, if_pos rfl]
      have hrec := ih mc hmc
      constructor
      · intro k hk
        cases k with
        | zero => simpa using hmc
        | succ j =>
          have := hrec.1 j (by omega)
          simpa using this
      · intro hlen
        simp only [List.length_cons] at hlen
        have h2 := hrec.2 (by omega)
        rw [Nat.add_comm 1 (blocksRead limit rest mc), List.take_succ_cons,
          List.sum_cons]
        simpa using h2
    · rw [blocksRead, if_neg hb]
      by_cases hstop : limit ≠ 0 ∧ limit ≤ mc + b
      · rw [if_pos hstop]
        constructor
        · intro k hk
          interval_cases k
          simpa using hmc
        · intro _
          simpa using hstop.2
      · rw [if_neg hstop]
        have hmc' : mc + b < limit := by
          rcases not_and_or.mp hstop with h | h
          · exact absurd (by omega : limit ≠ 0) h
          · omega
        have hrec := ih (mc + b) hmc'
        constructor
        · intro k hk
          cases k with
          | zero => simpa using hmc
          | succ j =>
            have := hrec.1 j (by omega)
            simp only [List.take_succ_cons, List.sum_cons] at this ⊢
            push_cast at this ⊢
            omega
        · intro hlen
          simp only [List.length_cons] at hlen
          have h2 := hrec.2 (by omega)
          rw [Nat.add_comm 1 (blocksRead limit rest (mc + b)), List.take_succ_cons,
            List.sum_cons]
          push_cast at h2 ⊢
          omega

lemma printMatchesCount_le (limit : Int) (hl : 0 < limit) :
    ∀ (ms : List Match) (mc : Int), mc < limit →
      (printMatchesCount limit ms mc : Int) ≤ limit - mc := by
  intro ms
  induction ms with
  | nil => intro mc hmc; simp [printMatchesCount]; omega
  | cons m rest ih =>
    intro mc hmc
    rw [printMatchesCount]
    by_cases hstop : limit ≠ 0 ∧ limit ≤ mc + 1
    · rw [if_pos hstop]
      push_cast
      omega
    · rw [if_neg hstop]
      have hmc' : mc + 1 < limit := by
        rcases not_and_or.mp hstop with h | h
        · exact absurd (by omega : limit ≠ 0) h
        · omega
      have := ih (mc + 1) hmc'
      push_cast at this ⊢
      omega

/-- **C5**.  With `limit > 0`: the engine stops reading once the accumulated
match count reaches `limit` — before every block it consumes, the count is
still below `limit`, and when it stops before exhausting the input, the
consumed blocks' matches have reached `limit` — and the renderer's printing
loop outputs at most `limit` matches per target. -/
theorem c5_limit_caps_output (limit : Int) (hl : 0 < limit)
    (blocks : List Nat) (ms : List Match) :
    (∀ k < blocksRead limit blocks 0, (((blocks.take k).sum : Nat) : Int) < limit) ∧
    (blocksRead limit blocks 0 < blocks.length →
      limit ≤ (((blocks.take (blocksRead limit blocks 0)).sum : Nat) : Int)) ∧
    (printMatchesCount limit ms 0 : Int) ≤ limit := by
  have hb := blocksRead_spec limit hl blocks 0 hl
  have hp := printMatchesCount_le limit hl ms 0 hl
  refine ⟨?_, ?_, ?_⟩
  · intro k hk
    have := hb.1 k hk
    simpa using this
  · intro hlen
    have := hb.2 hlen
    simpa using this
  · omega

/-- Witness for C5: with `limit = 2`, the printing loop prints only 2 of 3
matches. -/
theorem c5_limit_caps_output_witness :
    (printMatchesCount 2 [{ start := 0 : Match }, { start := 1 : Match },
        { start := 2 : Match }] 0 : Int) ≤ 2 :=
  (c5_limit_caps_output 2 (by decide) [3, 5]
    [{ start := 0 : Match }, { start := 1 : Match }, { start := 2 : Match }]).2.2

/-!
## The condition evaluator (`applyConditions`, `processReader` part lines 427–528)
-/

/-- Stage-1 fulfilment test of `applyConditions` (lines 437–452), applied to
every condition match: `FileMatches` conditions are always fulfilled,
`LineMatches` / `RangeMatches` compare the condition match's line number to
the condition's line range, and every other condition type takes the Go
`default` branch, `conditionFulfilled = !negated`. -/
def fileConditionFulfilled (c : Condition) (cm : Match) : Bool :=
  match c.conditionType with
  | .fileMatches => true
  | .lineMatches => cm.lineno == c.lineRangeStart
  | .rangeMatches =>
      decide (c.lineRangeStart ≤ cm.lineno) && decide (cm.lineno ≤ c.lineRangeEnd)
  | _ => !c.negated

/-- Stage-2 fulfilment test of `applyConditions` (lines 478–507) for a
primary match `m` against a condition match `cm`: the `Preceded` /
`Followed` / `Surrounded` line-distance rules; every other condition type
takes the Go `default` branch, `conditionFulfilled = !negated`. -/
def spatialConditionFulfilled (c : Condition) (cm m : Match) : Bool :=
  match c.conditionType with
  | .preceded =>
      let actualDistance := m.lineno - cm.lineno
      if actualDistance = 0 then decide (cm.start < m.start)
      else decide (0 ≤ actualDistance) &&
        (decide (c.within = -1) || decide (actualDistance ≤ c.within))
  | .followed =>
      let actualDistance := cm.lineno - m.lineno
      if actualDistance = 0 then decide (m.start < cm.start)
      else decide (0 ≤ actualDistance) &&
        (decide (c.within = -1) || decide (actualDistance ≤ c.within))
  | .surrounded =>
      let actualDistance :=
        if cm.lineno < m.lineno then m.lineno - cm.lineno
        else cm.lineno - m.lineno
      if actualDistance = 0 then true
      else decide (0 ≤ actualDistance) &&
        (decide (c.within = -1) || decide (actualDistance ≤ c.within))
  | _ => !c.negated

/-- The `conditionStatus` bookkeeping shared by both stages of
`applyConditions`: walk the condition matches; when one fulfils its condition
(looked up through `conditionID`), a negated condition aborts (`none`, the Go
early `return` / `goto ConditionFailed`), a non-negated one marks its status
slot.  A `conditionID` out of range is skipped (the Go code would panic
there; the engine only ever produces valid indices). -/
def scanConditionMatches (conds : List Condition)
    (fulfilled : Condition → Match → Bool) :
    List Match → List Bool → Option (List Bool)
  | [], status => some status
  | cm :: rest, status =>
    match conds[cm.conditionID]? with
    | none => scanConditionMatches conds fulfilled rest status
    | some c =>
      if fulfilled c cm then
        if c.negated then none
        else scanConditionMatches conds fulfilled rest (status.set cm.conditionID true)
      else scanConditionMatches conds fulfilled rest status

/-- The closing check of each stage (lines 461–466 and 516–520): some
non-negated condition was never marked fulfilled. -/
def missingNonNegated (conds : List Condition) (status : List Bool) : Bool :=
  (List.zip status conds).any fun p => !p.1 && !p.2.negated

/-- Stage 1 of `applyConditions` (lines 432–466): whether the file-level
conditions already clear all matches of the result. -/
def stage1Clears (conds : List Condition) (conditionMatches : List Match) : Bool :=
  match scanConditionMatches conds fileConditionFulfilled conditionMatches
      (List.replicate conds.length false) with
  | none => true
  | some status => missingNonNegated conds status

/-- Stage 2 of `applyConditions` for one primary match (lines 470–522):
whether the match survives the preceded/followed/surrounded conditions. -/
def matchKept (conds : List Condition) (conditionMatches : List Match)
    (m : Match) : Bool :=
  match scanConditionMatches conds (fun c cm => spatialConditionFulfilled c cm m)
      conditionMatches (List.replicate conds.length false) with
  | none => false
  | some status => !missingNonNegated conds status

/-- `Result.applyConditions`: with no matches or no conditions the result is
untouched (line 428); if stage 1 clears, `matches` becomes empty; otherwise
the in-place removal loop keeps, in order, exactly the matches that pass the
stage-2 check. -/
def applyConditions (conds : List Condition) (r : Result) : Result :=
  if r.matches_.isEmpty || conds.isEmpty then r
  else if stage1Clears conds r.conditionMatches then { r with matches_ := [] }
  else { r with matches_ := r.matches_.filter (matchKept conds r.conditionMatches) }

/-- **C6**.  For a `Preceded` condition with condition match `CM` and primary
match `M`: when `M.line_no = CM.line_no` the condition is satisfied iff
`CM.start < M.start`; otherwise it is satisfied iff `M.line_no − CM.line_no ≥ 0`
and (`within = −1` or `M.line_no − CM.line_no ≤ within`). -/
theorem c6_preceded_condition (c : Condition) (cm m : Match)
    (hc : c.conditionType = ConditionType.preceded) :
    (spatialConditionFulfilled c cm m = true ↔
      (if m.lineno = cm.lineno then cm.start < m.start
       else 0 ≤ m.lineno - cm.lineno ∧
         (c.within = -1 ∨ m.lineno - cm.lineno ≤ c.within))) := by
  rw [spatialConditionFulfilled, hc]
  by_cases hd : m.lineno - cm.lineno = 0
  · have heq : m.lineno = cm.lineno := by omega
    simp [hd, heq]
  · have hne : ¬(m.lineno = cm.lineno) := by omega
    simp [hd, hne]

/-- Witness for C6: line distance 1 within a bound of 3 satisfies the
`Preceded` condition. -/
theorem c6_preceded_condition_witness :
    spatialConditionFulfilled
      { conditionType := ConditionType.preceded, within := 3 }
      { start := 0, lineno := 1 } { start := 5, lineno := 2 } = true :=
  (c6_preceded_condition
    { conditionType := ConditionType.preceded, within := 3 }
    { start := 0, lineno := 1 } { start := 5, lineno := 2 } rfl).mpr
    (by norm_num)

/-- **C9** (IP7).  The condition evaluator is idempotent: applying
`applyConditions` twice to a `Result` yields exactly the same matches (same
elements, same order) as applying it once. -/
theorem c9_applyConditions_idempotent (conds : List Condition) (r : Result) :
    applyConditions conds (applyConditions conds r) = applyConditions conds r := by
  obtain ⟨cMs, ms, cap, str, bin, tgt⟩ := r
  by_cases h0 : (ms.isEmpty || conds.isEmpty) = true
  · have hin : applyConditions conds ⟨cMs, ms, cap, str, bin, tgt⟩ =
        ⟨cMs, ms, cap, str, bin, tgt⟩ := by
      rw [applyConditions, if_pos h0]
    rw [hin, hin]
  · by_cases h1 : stage1Clears conds cMs = true
    · have hin : applyConditions conds ⟨cMs, ms, cap, str, bin, tgt⟩ =
          ⟨cMs, [], cap, str, bin, tgt⟩ := by
        rw [applyConditions, if_neg h0, if_pos h1]
      rw [hin]
      rw [applyConditions, if_pos (by simp)]
    · have hin : applyConditions conds ⟨cMs, ms, cap, str, bin, tgt⟩ =
          ⟨cMs, ms.filter (matchKept conds cMs), cap, str, bin, tgt⟩ := by
        rw [applyConditions, if_neg h0, if_neg h1]
      rw [hin]
      by_cases h2 : ((ms.filter (matchKept conds cMs)).isEmpty || conds.isEmpty) = true
      · rw [applyConditions, if_pos h2]
      · rw [applyConditions, if_neg h2, if_neg h1]
        have hff : (ms.filter (matchKept conds cMs)).filter (matchKept conds cMs) =
            ms.filter (matchKept conds cMs) := by
          rw [List.filter_filter]
          exact List.filter_congr fun a _ => by rw [Bool.and_self]
        rw [hff]

/-!
## C7: binary detection (`processReader` lines 101–116)
-/

/-- The scan loop of the binary check: whether any of the first `s` bytes is
a 0x00 (reads beyond the buffer default to 1, a non-NUL byte; in real runs
`s` never exceeds the buffer length). -/
def binaryScan (data : List Nat) : Nat → Bool
  | 0 => false
  | i + 1 => binaryScan data i || (data.getD i 1 == 0)

/-- Binary detection on the first block (`offset == 0`): scan the first
`min(length, 256)` bytes (`s := 256; if length < s { s = length }`) for a
0x00 byte. -/
def binaryCheck (data : List Nat) (length : Nat) : Bool :=
  binaryScan data (min 256 length)

/-- `processReader` including the first block's binary detection: when a NUL
is found and `options.BinarySkip` is set, the engine returns immediately with
no events; otherwise the block loop runs with `resultIsBinary` as detected. -/
def processReaderEvents (binarySkip : Bool) (data : List Nat) (length : Nat)
    (allowed : Bool) (threshold : Nat) (limit : Int) (condMatches : List Match)
    (target : String) (blocks : List (List Match)) : List EngineEvent :=
  if binaryCheck data length = true ∧ binarySkip = true then []
  else
    processBlocksLoop allowed threshold limit (binaryCheck data length)
      condMatches target blocks [] 0 false

lemma binaryScan_iff (data : List Nat) :
    ∀ n : Nat, binaryScan data n = true ↔ ∃ i, i < n ∧ data.getD i 1 = 0 := by
  intro n
  induction n with
  | zero => simp [binaryScan]
  | succ n ih =>
    rw [binaryScan, Bool.or_eq_true, ih]
    constructor
    · rintro (⟨i, hi, h0⟩ | h0)
      · exact ⟨i, Nat.lt_succ_of_lt hi, h0⟩
      · exact ⟨n, Nat.lt_succ_self n, by simpa using h0⟩
    · rintro ⟨i, hi, h0⟩
      rcases Nat.lt_succ_iff_lt_or_eq.mp hi with hi | hi
      · exact Or.inl ⟨i, hi, h0⟩
      · subst hi; exact Or.inr (by simpa using h0)

lemma mem_sendResult_isBinary (allowed : Bool) (threshold : Nat) (limit : Int)
    (isBinary : Bool) (condMatches : List Match) (target : String) :
    ∀ (blocks : List (List Match)) (acc : List Match) (mc : Int) (son : Bool)
      (r : Result),
      EngineEvent.sendResult r ∈
        processBlocksLoop allowed threshold limit isBinary condMatches target
          blocks acc mc son →
      r.isBinary = isBinary := by
  intro blocks
  induction blocks with
  | nil =>
    intro acc mc son r hr
    rw [processBlocksLoop] at hr
    cases son with
    | true => simp at hr
    | false =>
      simp at hr
      rw [hr]
      rfl
  | cons b rest ih =>
    intro acc mc son r hr
    rw [processBlocksLoop] at hr
    by_cases hb : b.isEmpty = true
    · rw [if_pos hb] at hr
      exact ih acc mc son r hr
    · rw [if_neg hb] at hr
      cases son with
      | true =>
        rw [if_pos rfl] at hr
        by_cases hl : limit ≠ 0 ∧ limit ≤ mc + b.length
        · rw [if_pos hl] at hr
          simp at hr
        · rw [if_neg hl] at hr
          simp only [List.mem_cons] at hr
          rcases hr with hr | hr
          · cases hr
          · exact ih acc (mc + b.length) true r hr
      | false =>
        rw [if_neg (by simp)] at hr
        by_cases hc : threshold < (acc ++ b).length ∧ allowed = true
        · rw [if_pos hc] at hr
          by_cases hl : limit ≠ 0 ∧ limit ≤ mc + b.length
          · rw [if_pos hl] at hr
            simp at hr
            rw [hr]
            rfl
          · rw [if_neg hl] at hr
            simp only [List.mem_cons] at hr
            rcases hr with hr | hr
            · injection hr with hr
              rw [hr]
              rfl
            · exact ih (acc ++ b) (mc + b.length) true r hr
        · rw [if_neg hc] at hr
          by_cases hl : limit ≠ 0 ∧ limit ≤ mc + b.length
          · rw [if_pos hl] at hr
            simp at hr
            rw [hr]
            rfl
          · rw [if_neg hl] at hr
            exact ih (acc ++ b) (mc + b.length) false r hr

/-- **C7**.  Binary detection runs on the first block: the first
`min(length, 256)` bytes are scanned for a 0x00 byte; when one is found and
the binary-skip option is set, the engine terminates the target immediately
with no events (in particular no matches and no `Result`); otherwise every
`Result` the engine sends is marked with `isBinary` equal to the detection
outcome. -/
theorem c7_binary_detection (data : List Nat) (length : Nat) (allowed : Bool)
    (threshold : Nat) (limit : Int) (condMatches : List Match) (target : String)
    (blocks : List (List Match)) :
    (binaryCheck data length = true ↔
      ∃ i, i < min 256 length ∧ data.getD i 1 = 0) ∧
    (binaryCheck data length = true →
      processReaderEvents true data length allowed threshold limit condMatches
        target blocks = []) ∧
    (∀ r : Result,
      EngineEvent.sendResult r ∈
        processReaderEvents false data length allowed threshold limit condMatches
          target blocks →
      r.isBinary = binaryCheck data length) := by
  refine ⟨binaryScan_iff data (min 256 length), ?_, ?_⟩
  · intro h
    rw [processReaderEvents, if_pos ⟨h, rfl⟩]
  · intro r hr
    rw [processReaderEvents, if_neg (fun h => absurd h.2 (by simp))] at hr
    exact mem_sendResult_isBinary allowed threshold limit (binaryCheck data length)
      condMatches target blocks [] 0 false r hr

/-- Witness for C7: a first block starting with a NUL byte, binary-skip set:
the engine emits nothing. -/
theorem c7_binary_detection_witness :
    processReaderEvents true [0, 65] 2 false 5 0 [] "t"
      [[{ start := 0 : Match }]] = [] :=
  (c7_binary_detection [0, 65] 2 false 5 0 [] "t"
    [[{ start := 0 : Match }]]).2.1 (by decide)

/-!
## C10: ASCII-only case folding (`matching_cgo.go`, `bytes_to_lower`)
-/

/-- One byte of the C `bytes_to_lower` kernel:
`out[i] = (buf[i] - 65U < 26) ? buf[i] + 32 : buf[i]`, where `buf[i] - 65U`
is 32-bit unsigned arithmetic, i.e. `(b + 2^32 − 65) mod 2^32` for a byte
`b < 2^32`. -/
def bytes_to_lower_byte (b : Nat) : Nat :=
  if (b + (2 ^ 32 - 65)) % 2 ^ 32 < 26 then b + 32 else b

/-- `bytesToLower(input, output, n)`: the first `n` bytes of the shadow
buffer after the call.  The four-way unrolled loop and the remainder loop of
the C code apply the same per-byte transliteration to every index below
`n`. -/
def bytesToLower (input : List Nat) (n : Nat) : List Nat :=
  (input.take n).map bytes_to_lower_byte

lemma lower_window {b : Nat} (hb : b < 256) :
    (b + (2 ^ 32 - 65)) % 2 ^ 32 < 26 ↔ 65 ≤ b ∧ b ≤ 90 := by
  by_cases h65 : 65 ≤ b
  · have he : b + (2 ^ 32 - 65) = 2 ^ 32 + (b - 65) := by omega
    rw [he, Nat.add_mod_left, Nat.mod_eq_of_lt (by omega)]
    omega
  · rw [Nat.mod_eq_of_lt (by omega)]
    omega

/-- **C10**.  The `ignore_case` shadow-buffer fold is ASCII-only: for every
index below `n`, the output byte is the input byte plus 32 when the input
byte is in `0x41..0x5A` (`'A'..'Z'`), and the unchanged input byte for every
other value — so non-ASCII bytes (e.g. of multi-byte UTF-8 uppercase
characters) are never folded. -/
theorem c10_bytesToLower_ascii_only (input : List Nat) (n i : Nat)
    (hin : i < n) (hlen : i < input.length) (hbyte : input.getD i 0 < 256) :
    (bytesToLower input n).getD i 0 =
      (if 65 ≤ input.getD i 0 ∧ input.getD i 0 ≤ 90 then input.getD i 0 + 32
       else input.getD i 0) := by
  have hlt : i < ((input.take n).map bytes_to_lower_byte).length := by
    simp only [List.length_map, List.length_take]
    omega
  rw [bytesToLower, List.getD_eq_getElem _ _ hlt, List.getElem_map,
    List.getElem_take, List.getD_eq_getElem _ _ hlen] at *
  rw [bytes_to_lower_byte]
  by_cases hcase : 65 ≤ input[i] ∧ input[i] ≤ 90
  · rw [if_pos ((lower_window hbyte).mpr hcase), if_pos hcase]
  · rw [if_neg (fun hcon => hcase ((lower_window hbyte).mp hcon)), if_neg hcase]

/-- Witness for C10: the byte 0xC3 (first byte of a multi-byte UTF-8
character) is left unchanged while an ASCII `A` is folded. -/
theorem c10_bytesToLower_ascii_only_witness :
    (bytesToLower [65, 97, 195] 3).getD 2 0 = 195 ∧
      (bytesToLower [65, 97, 195] 3).getD 0 0 = 97 := by
  constructor
  · rw [c10_bytesToLower_ascii_only [65, 97, 195] 3 2 (by decide) (by decide)
      (by decide)]
    decide
  · rw [c10_bytesToLower_ascii_only [65, 97, 195] 3 0 (by decide) (by decide)
      (by decide)]
    decide

/-!
## C8: when the engine computes line numbers (`processReader` lines 194–196,
`countLines`)
-/

/-- The output-related options observed here (from the `Options` struct of
the option parser source).  `ShowColumnNumbers` (`--column`) and
`ShowByteOffset` (`--byte-offset`) exist as output options, but — contrary to
the specification — they do not appear in the engine's line-numbering
gate. -/
structure Options where
  showLineNumbers : Bool := false
  showColumnNumbers : Bool := false
  showByteOffset : Bool := false
  contextBefore : Nat := 0
  contextAfter : Nat := 0
deriving DecidableEq, Repr

/-- The gate of `processReader` line 194:
`options.ShowLineNumbers || options.ContextBefore > 0 ||
options.ContextAfter > 0 || len(global.conditions) > 0`. -/
def computesLineNumbers (o : Options) (numConditions : Nat) : Bool :=
  o.showLineNumbers || decide (0 < o.contextBefore) ||
    decide (0 < o.contextAfter) || decide (0 < numConditions)

/-- The inner advance of `countLines`: assign line number `lc` to the leading
pending matches whose `lineStart` lies at or before the absolute position `p`
(the Go `for currentMatch < len(matches) && offset+i >= lineStart` loops),
returning the assigned prefix and the still-pending suffix. -/
def assignUpTo (lc p : Int) : List Match → List Match × List Match
  | [] => ([], [])
  | m :: rest =>
    if m.lineStart ≤ p then
      let ar := assignUpTo lc p rest
      ({ m with lineno := lc } :: ar.1, ar.2)
    else ([], m :: rest)

/-- The byte walk of `countLines` (lines 394–424) over the block's first
`validMatchRange` bytes, with absolute positions (`p = offset + i`): each
newline byte assigns the current line count to the pending matches whose line
starts at or before it, then increments the count; after the walk, the
remaining matches with `lineStart ≤ offset + validMatchRange` receive the
final count.  Returns the updated matches (order preserved) and the final
line count.  (The Go function applies the identical logic to the primary and
the condition match lists side by side; one list is modelled.) -/
def countLinesLoop : List Nat → Int → Int → List Match → List Match × Int
  | [], p, lc, pending =>
    ((assignUpTo lc p pending).1 ++ (assignUpTo lc p pending).2, lc)
  | byte :: rest, p, lc, pending =>
    if byte = 10 then
      ((assignUpTo lc p pending).1 ++
          (countLinesLoop rest (p + 1) (lc + 1) (assignUpTo lc p pending).2).1,
        (countLinesLoop rest (p + 1) (lc + 1) (assignUpTo lc p pending).2).2)
    else countLinesLoop rest (p + 1) lc pending

/-- `countLines(data, …, offset, validMatchRange, lineCount)`. -/
def countLines (data : List Nat) (validMatchRange : Nat) (offset lc : Int)
    (ms : List Match) : List Match × Int :=
  countLinesLoop (data.take validMatchRange) offset lc ms

/-- `processReader` lines 194–196: `countLines` runs only when the gate is
set; otherwise matches and the running line count are untouched. -/
def maybeCountLines (o : Options) (numConditions : Nat) (data : List Nat)
    (validMatchRange : Nat) (offset lc : Int) (ms : List Match) :
    List Match × Int :=
  if computesLineNumbers o numConditions then
    countLines data validMatchRange offset lc ms
  else (ms, lc)

lemma assignUpTo_eq (lc p : Int) :
    ∀ ms : List Match,
      assignUpTo lc p ms =
        ((ms.takeWhile fun m => decide (m.lineStart ≤ p)).map
            (fun m => { m with lineno := lc }),
          ms.dropWhile fun m => decide (m.lineStart ≤ p)) := by
  intro ms
  induction ms with
  | nil => rfl
  | cons m rest ih =>
    rw [assignUpTo, List.takeWhile_cons, List.dropWhile_cons]
    by_cases hm : m.lineStart ≤ p
    · rw [if_pos hm, ih]
      simp [hm]
    · rw [if_neg hm]
      simp [hm]

lemma dropWhile_lineStart_gt {p : Int} :
    ∀ {ms : List Match},
      List.Pairwise (fun a b : Match => a.lineStart ≤ b.lineStart) ms →
      ∀ m ∈ ms.dropWhile fun m => decide (m.lineStart ≤ p), p < m.lineStart := by
  intro ms
  induction ms with
  | nil => intro _ m hm; simp at hm
  | cons a rest ih =>
    intro hs m hm
    rw [List.dropWhile_cons] at hm
    by_cases ha : a.lineStart ≤ p
    · rw [if_pos (by simpa using ha)] at hm
      exact ih (List.pairwise_cons.mp hs).2 m hm
    · rw [if_neg (by simpa using ha)] at hm
      rcases List.mem_cons.mp hm with hm | hm
      · subst hm; omega
      · have := (List.pairwise_cons.mp hs).1 m hm
        omega

lemma countLinesLoop_spec :
    ∀ (bytes : List Nat) (p lc : Int) (pending : List Match),
      List.Pairwise (fun a b : Match => a.lineStart ≤ b.lineStart) pending →
      (countLinesLoop bytes p lc pending).1 =
        pending.map (fun m =>
          if m.lineStart ≤ p + bytes.length then
            { m with lineno :=
                lc + (((bytes.take (m.lineStart - p).toNat).count 10 : Nat) : Int) }
          else m) ∧
      (countLinesLoop bytes p lc pending).2 = lc + ((bytes.count 10 : Nat) : Int) := by
  intro bytes
  induction bytes with
  | nil =>
    intro p lc pending hs
    rw [countLinesLoop, assignUpTo_eq]
    dsimp only
    constructor
    · conv_rhs => rw [← List.takeWhile_append_dropWhile
        (p := fun m => decide (m.lineStart ≤ p)) (l := pending), List.map_append]
      congr 1
      · refine List.map_congr_left ?_
        intro a ha
        have haf : a.lineStart ≤ p := by
          simpa using List.mem_takeWhile_imp ha
        simp [haf]
      · refine (List.map_id _).symm.trans (List.map_congr_left ?_)
        intro a ha
        have haf : p < a.lineStart := dropWhile_lineStart_gt hs a ha
        simp only [List.length_nil, Nat.cast_zero, add_zero]
        rw [if_neg (by omega)]
        rfl
    · simp
  | cons byte rest ih =>
    intro p lc pending hs
    rw [countLinesLoop]
    by_cases hnl : byte = 10
    · subst hnl
      rw [if_pos rfl, assignUpTo_eq]
      dsimp only
      have hs' : List.Pairwise (fun a b : Match => a.lineStart ≤ b.lineStart)
          (pending.dropWhile fun m => decide (m.lineStart ≤ p)) :=
        List.Pairwise.sublist (List.dropWhile_sublist _) hs
      have hrec := ih (p + 1) (lc + 1)
        (pending.dropWhile fun m => decide (m.lineStart ≤ p)) hs'
      constructor
      · rw [hrec.1]
        conv_rhs => rw [← List.takeWhile_append_dropWhile
          (p := fun m => decide (m.lineStart ≤ p)) (l := pending), List.map_append]
        congr 1
        · refine List.map_congr_left ?_
          intro a ha
          have haf : a.lineStart ≤ p := by
            simpa using List.mem_takeWhile_imp ha
          have hcond : a.lineStart ≤ p + (((10 : Nat) :: rest).length : Int) := by
            simp only [List.length_cons]
            push_cast
            omega
          rw [if_pos hcond]
          have htake : (a.lineStart - p).toNat = 0 := by omega
          rw [htake]
          simp
        · refine List.map_congr_left ?_
          intro a ha
          have haf : p < a.lineStart := dropWhile_lineStart_gt hs a ha
          by_cases hcond : a.lineStart ≤ p + (((10 : Nat) :: rest).length : Int)
          · have hcond' : a.lineStart ≤ p + 1 + (rest.length : Int) := by
              simp only [List.length_cons] at hcond
              push_cast at hcond ⊢
              omega
            rw [if_pos hcond', if_pos hcond]
            have htake : (a.lineStart - p).toNat
                = (a.lineStart - (p + 1)).toNat + 1 := by omega
            rw [htake, List.take_succ_cons]
            have hcount : (((10 : Nat) :: List.take (a.lineStart - (p + 1)).toNat rest).count 10)
                = ((List.take (a.lineStart - (p + 1)).toNat rest).count 10) + 1 := by
              simp [List.count_cons]
            rw [hcount]
            have harith : lc + 1
                  + (((List.take (a.lineStart - (p + 1)).toNat rest).count 10 : Nat) : Int)
                = lc + ((((List.take (a.lineStart - (p + 1)).toNat rest).count 10) + 1 : Nat) : Int) := by
              push_cast
              omega
            rw [harith]
          · have hcond' : ¬(a.lineStart ≤ p + 1 + (rest.length : Int)) := by
              simp only [List.length_cons] at hcond
              push_cast at hcond ⊢
              omega
            rw [if_neg hcond', if_neg hcond]
      · rw [hrec.2]
        have hcount : (((10 : Nat) :: rest).count 10) = (rest.count 10) + 1 := by
          simp [List.count_cons]
        rw [hcount]
        push_cast
        omega
    · rw [if_neg hnl]
      have hrec := ih (p + 1) lc pending hs
      constructor
      · rw [hrec.1]
        refine List.map_congr_left ?_
        intro a _
        by_cases hcond : a.lineStart ≤ p + 1 + (rest.length : Int)
        · have hcond2 : a.lineStart ≤ p + ((byte :: rest).length : Int) := by
            simp only [List.length_cons]
            push_cast at hcond ⊢
            omega
          rw [if_pos hcond, if_pos hcond2]
          by_cases hle : a.lineStart ≤ p
          · have h1 : (a.lineStart - (p + 1)).toNat = 0 := by omega
            have h2 : (a.lineStart - p).toNat = 0 := by omega
            rw [h1, h2, List.take_zero, List.take_zero]
          · have h3 : (a.lineStart - p).toNat
                = (a.lineStart - (p + 1)).toNat + 1 := by omega
            rw [h3, List.take_succ_cons]
            have hcount : ((byte :: List.take (a.lineStart - (p + 1)).toNat rest).count 10)
                = ((List.take (a.lineStart - (p + 1)).toNat rest).count 10) := by
              simp [List.count_cons, hnl]
            rw [hcount]
        · have hcond2 : ¬(a.lineStart ≤ p + ((byte :: rest).length : Int)) := by
            simp only [List.length_cons]
            push_cast at hcond ⊢
            omega
          rw [if_neg hcond, if_neg hcond2]
      · rw [hrec.2]
        have hcount : ((byte :: rest).count 10) = (rest.count 10) := by
          simp [List.count_cons, hnl]
        rw [hcount]

/-- The options record with only `--column` set. -/
def columnsOnly : Options := { showColumnNumbers := true }

/-- **C8** counterexample.  With only `show_column_numbers` set (no
`show_line_numbers`, no context, no conditions), the gate of `processReader`
line 194 is off and `countLines` never runs: on the block `"x\n"` with one
match whose line starts at offset 0 and an incoming line count of 1, the
match's `lineno` stays 0 instead of the value 1 that IP5 prescribes.  The
same holds for `show_byte_offset`.  This refutes the claim that those two
options force the engine to compute line numbers. -/
theorem c8_counterexample :
    columnsOnly.showColumnNumbers = true ∧
    (maybeCountLines columnsOnly 0 [120, 10] 2 0 1
        [{ lineStart := 0 : Match }]).1 = [{ lineStart := 0 : Match }] ∧
    ({ lineStart := 0 : Match } : Match).lineno ≠ 1 := by
  decide

/-- **C8** (amended).  The engine computes line numbers exactly when
`show_line_numbers` is set, a context option is positive, or conditions are
defined; `show_column_numbers` and `show_byte_offset` do not trigger the
computation.  When the gate is on, every match whose line starts within the
processed range (the engine hands `countLines` blocks sorted by match
offset, hence by `lineStart`) is assigned `lc` plus the number of newlines
in the block before its line start — consistent with IP5 when `lc` is one
plus the newlines before the block.  When the gate is off, the matches and
the running line count are untouched. -/
theorem c8_amended_line_number_gate (o : Options) (numConditions : Nat)
    (data : List Nat) (vmr : Nat) (offset lc : Int) (ms : List Match)
    (hsorted : List.Pairwise (fun a b : Match => a.lineStart ≤ b.lineStart) ms)
    (hvmr : vmr ≤ data.length) :
    (computesLineNumbers o numConditions = true →
      (maybeCountLines o numConditions data vmr offset lc ms).1 =
        ms.map (fun m =>
          if m.lineStart ≤ offset + vmr then
            { m with lineno := lc +
                ((((data.take vmr).take (m.lineStart - offset).toNat).count 10 : Nat) : Int) }
          else m)) ∧
    (computesLineNumbers o numConditions = false →
      maybeCountLines o numConditions data vmr offset lc ms = (ms, lc)) ∧
    (∀ showCol showByte : Bool,
      computesLineNumbers
        { showLineNumbers := false, showColumnNumbers := showCol,
          showByteOffset := showByte, contextBefore := 0, contextAfter := 0 }
        0 = false) := by
  refine ⟨?_, ?_, ?_⟩
  · intro hgate
    rw [maybeCountLines, if_pos hgate, countLines,
      (countLinesLoop_spec (data.take vmr) offset lc ms hsorted).1,
      show (data.take vmr).length = vmr from
        (List.length_take vmr data).trans (Nat.min_eq_left hvmr)]
  · intro hgate
    rw [maybeCountLines, if_neg (by simp [hgate])]
  · intro showCol showByte
    rfl

/-- Witness for the amended C8: with `-n` set, the two matches on the block
`"x\nyz"` (one newline, at offset 1) receive line numbers 1 and 2. -/
theorem c8_amended_line_number_gate_witness :
    (maybeCountLines { showLineNumbers := true } 0 [120, 10, 121] 3 0 1
        [{ lineStart := 0 : Match }, { lineStart := 2 : Match }]).1 =
      [{ lineStart := 0, lineno := 1 : Match },
        { lineStart := 2, lineno := 2 : Match }] := by
  rw [(c8_amended_line_number_gate { showLineNumbers := true } 0 [120, 10, 121]
      3 0 1 [{ lineStart := 0 : Match }, { lineStart := 2 : Match }]
      (by decide) (by decide)).1 rfl]
  decide

/-- Witness for the amended C4: a full 2-byte single-line block with no
newline raises `LineTooLong`. -/
theorem c4_amended_line_too_long_witness :
    raisesLineTooLong false false [65, 66] 2 2 32768 = true :=
  (c4_amended_line_too_long false false [65, 66] 2 2 32768).1.mpr
    ⟨rfl, rfl, by decide⟩
